/-
Verification of the margin-analysis repository against its specification.

The development shallowly embeds the Python sources of the repository:
  margin_analysis/base.py, data_utils.py, margin_utils.py, strategy.py,
  margin_optimizer.py, margin_stress_test.py, data.py,
  and the top-level holding_data_processor.py.
Monetary quantities are modelled as rationals, pandas rows as records,
tables as lists of records.  Each claim of the specification is stated
as a theorem about these definitions.
-/
import Mathlib

namespace MarginAnalysis

/-- Exchange enumeration.  Modelled from the spec: the canonical closed
enumeration of section 3 is {CFFEX, SSE, SZSE, SHFE, CZCE, DCE, GFEX}.
The file base.py shipped in the repository is a stale revision naming the
first member CFE and lacking the from_code normalizer that data_utils.py
and margin_utils.py reference, so the canonical form follows the spec. -/
inductive Exchange where
  | CFFEX
  | SSE
  | SZSE
  | SHFE
  | CZCE
  | DCE
  | GFEX
deriving DecidableEq

/-- PositionType enumeration from base.py. -/
inductive PositionType where
  | Future
  | Option
  | Stock
deriving DecidableEq

/-- Direction of a leg, the long_short column. -/
inductive Side where
  | long
  | short
deriving DecidableEq

/-- Call or put flag of an option leg. -/
inductive CallPut where
  | call
  | put
deriving DecidableEq

/-- The opposite side, used to talk about the two sides of a variety. -/
def Side.other : Side → Side
  | Side.long => Side.short
  | Side.short => Side.long

/-- Position record: one row of the normalized holding table.  The field
margin_rate models the margin_ratio column joined from the parameter
table. -/
structure Pos where
  account : String
  code : String
  code_dir : String
  exchange : Exchange
  ptype : PositionType
  variety : String
  long_short : Side
  quantity : ℕ
  margin : ℚ
  total_margin : ℚ
  option_mark_code : String
  last_tradedate : String
  call_put : CallPut
  strike_price : ℚ
  multiplier : ℚ
  close_price : ℚ
  udl_price : ℚ
  margin_rate : ℚ
  delta : ℚ
  gamma : ℚ
deriving DecidableEq

/-- Default position used as a base record for concrete examples. -/
def defaultPos : Pos where
  account := "A"
  code := ""
  code_dir := ""
  exchange := Exchange.DCE
  ptype := PositionType.Future
  variety := ""
  long_short := Side.long
  quantity := 1
  margin := 0
  total_margin := 0
  option_mark_code := ""
  last_tradedate := ""
  call_put := CallPut.call
  strike_price := 0
  multiplier := 0
  close_price := 0
  udl_price := 0
  margin_rate := 0
  delta := 0
  gamma := 0

/-! Single-side netting, margin_utils.process_larger_side_margin. -/

/-- Sum of total_margin over the future legs of one variety on one side,
as grouped by the SHFE branch of process_larger_side_margin. -/
def side_total (legs : List Pos) (v : String) (s : Side) : ℚ :=
  (legs.filter (fun p =>
    p.ptype == PositionType.Future && p.variety == v && p.long_short == s)).foldr
    (fun p acc => p.total_margin + acc) 0

/-- Sum of total_margin over all future legs on one side, as grouped by
the CFFEX branch of process_larger_side_margin. -/
def side_total_all (legs : List Pos) (s : Side) : ℚ :=
  (legs.filter (fun p =>
    p.ptype == PositionType.Future && p.long_short == s)).foldr
    (fun p acc => p.total_margin + acc) 0

/-- Whether some future leg of variety v sits on side s. -/
def has_side (legs : List Pos) (v : String) (s : Side) : Bool :=
  legs.any (fun p =>
    p.ptype == PositionType.Future && p.variety == v && p.long_short == s)

/-- Whether some future leg sits on side s. -/
def has_side_all (legs : List Pos) (s : Side) : Bool :=
  legs.any (fun p => p.ptype == PositionType.Future && p.long_short == s)

/-- Kept side of one variety, the idxmax over the per-side sums of the
pandas groupby.  The groupby series holds only the sides present among
the future legs of the variety; on a tie the sorted key order makes
idxmax return long. -/
def larger_side (legs : List Pos) (v : String) : Side :=
  if has_side legs v Side.long then
    if has_side legs v Side.short then
      if side_total legs v Side.short > side_total legs v Side.long
      then Side.short else Side.long
    else Side.long
  else
    if has_side legs v Side.short then Side.short else Side.long

/-- Kept side over all future legs, the CFFEX variant of the idxmax. -/
def larger_side_all (legs : List Pos) : Side :=
  if has_side_all legs Side.long then
    if has_side_all legs Side.short then
      if side_total_all legs Side.short > side_total_all legs Side.long
      then Side.short else Side.long
    else Side.long
  else
    if has_side_all legs Side.short then Side.short else Side.long

/-- Embedding of margin_utils.process_larger_side_margin: applies only
to CFFEX and SHFE accounts and only to their future legs, zeroing margin
and total_margin on every future leg outside the kept side; the SHFE
branch handles each variety independently. -/
def process_larger_side_margin (legs : List Pos) : List Pos :=
  match legs.head? with
  | none => legs
  | some hd =>
    if hd.exchange ≠ Exchange.CFFEX ∧ hd.exchange ≠ Exchange.SHFE then legs
    else if legs.all (fun p => !(p.ptype == PositionType.Future)) then legs
    else if hd.exchange = Exchange.CFFEX then
      legs.map (fun p =>
        if p.ptype == PositionType.Future &&
           !(p.long_short == larger_side_all legs) then
          { p with margin := 0, total_margin := 0 }
        else p)
    else
      legs.map (fun p =>
        if p.ptype == PositionType.Future &&
           !(p.long_short == larger_side legs p.variety) then
          { p with margin := 0, total_margin := 0 }
        else p)

lemma side_other_ne (s : Side) : s.other ≠ s := by
  cases s <;> simp [Side.other]

lemma foldr_tm_nonneg (L : List Pos) (h : ∀ p ∈ L, 0 ≤ p.total_margin) :
    0 ≤ L.foldr (fun p acc => p.total_margin + acc) 0 := by
  induction L with
  | nil => simp
  | cons a l ih =>
    simp only [List.foldr_cons]
    have ha := h a (List.mem_cons_self a l)
    have hl := ih (fun p hp => h p (List.mem_cons_of_mem a hp))
    linarith

lemma side_total_nonneg (legs : List Pos) (v : String) (s : Side)
    (hpos : ∀ p ∈ legs, 0 ≤ p.total_margin) : 0 ≤ side_total legs v s := by
  unfold side_total
  exact foldr_tm_nonneg _ (fun p hp => hpos p (List.mem_of_mem_filter hp))

lemma side_total_zero_of_not_has (legs : List Pos) (v : String) (s : Side)
    (h : has_side legs v s = false) : side_total legs v s = 0 := by
  unfold side_total
  have hf : legs.filter (fun p =>
      p.ptype == PositionType.Future && p.variety == v && p.long_short == s) = [] := by
    rw [List.filter_eq_nil_iff]
    intro p hp hpred
    rw [has_side, List.any_eq_false] at h
    exact h p hp hpred
  rw [hf]
  rfl

lemma has_side_of_mem (legs : List Pos) (p : Pos) (hp : p ∈ legs)
    (hf : p.ptype = PositionType.Future) :
    has_side legs p.variety p.long_short = true := by
  unfold has_side
  rw [List.any_eq_true]
  refine ⟨p, hp, ?_⟩
  simp [hf]

lemma has_side_of_pos_total (legs : List Pos) (v : String) (s : Side)
    (h : 0 < side_total legs v s) : has_side legs v s = true := by
  by_contra hc
  have hb : has_side legs v s = false := by
    cases hh : has_side legs v s
    · rfl
    · exact absurd hh hc
  rw [side_total_zero_of_not_has legs v s hb] at h
  exact lt_irrefl 0 h

lemma larger_side_eq_other (legs : List Pos) (p : Pos) (hp : p ∈ legs)
    (hf : p.ptype = PositionType.Future)
    (hpos : ∀ q ∈ legs, 0 ≤ q.total_margin)
    (hlt : side_total legs p.variety p.long_short <
      side_total legs p.variety p.long_short.other) :
    larger_side legs p.variety = p.long_short.other := by
  have hs : has_side legs p.variety p.long_short = true := has_side_of_mem legs p hp hf
  have hnn : 0 ≤ side_total legs p.variety p.long_short :=
    side_total_nonneg legs p.variety p.long_short hpos
  have hother : has_side legs p.variety p.long_short.other = true :=
    has_side_of_pos_total legs p.variety p.long_short.other (lt_of_le_of_lt hnn hlt)
  unfold larger_side
  cases hside : p.long_short with
  | long =>
    rw [hside] at hs hother hlt
    simp only [Side.other] at hother hlt ⊢
    simp [hs, hother, gt_iff_lt, hlt]
  | short =>
    rw [hside] at hs hother hlt
    simp only [Side.other] at hother hlt ⊢
    simp [hs, hother, gt_iff_lt, lt_asymm hlt]

lemma larger_side_eq_self (legs : List Pos) (p : Pos) (hp : p ∈ legs)
    (hf : p.ptype = PositionType.Future)
    (hgt : side_total legs p.variety p.long_short.other <
      side_total legs p.variety p.long_short) :
    larger_side legs p.variety = p.long_short := by
  have hs : has_side legs p.variety p.long_short = true := has_side_of_mem legs p hp hf
  unfold larger_side
  cases hside : p.long_short with
  | long =>
    rw [hside] at hs hgt
    simp only [Side.other] at hgt
    cases hsh : has_side legs p.variety Side.short <;>
      simp [hs, hsh, gt_iff_lt, lt_asymm hgt]
  | short =>
    rw [hside] at hs hgt
    simp only [Side.other] at hgt
    cases hlo : has_side legs p.variety Side.long <;>
      simp [hs, hlo, gt_iff_lt, hgt]

/-- Claim C5.  Single-side netting for an SHFE account is performed
independently per variety: within each variety the future legs on the
side whose summed total_margin is strictly smaller have margin and
total_margin zeroed, the future legs on the strictly larger side are
unchanged, and non-future legs are unchanged, the kept side being free
to differ between varieties. -/
theorem shfe_netting_per_variety (legs : List Pos) (hd : Pos)
    (hh : legs.head? = some hd) (hex : hd.exchange = Exchange.SHFE)
    (hpos : ∀ q ∈ legs, 0 ≤ q.total_margin)
    (i : ℕ) (p : Pos) (hi : legs.get? i = some p) :
    (p.ptype = PositionType.Future →
      side_total legs p.variety p.long_short <
        side_total legs p.variety p.long_short.other →
      (process_larger_side_margin legs).get? i =
        some { p with margin := 0, total_margin := 0 }) ∧
    (p.ptype = PositionType.Future →
      side_total legs p.variety p.long_short.other <
        side_total legs p.variety p.long_short →
      (process_larger_side_margin legs).get? i = some p) ∧
    (p.ptype ≠ PositionType.Future →
      (process_larger_side_margin legs).get? i = some p) := by
  have hpmem : p ∈ legs := List.get?_mem hi
  have hreduce : ∀ hfut : ¬ legs.all (fun q => !(q.ptype == PositionType.Future)) = true,
      process_larger_side_margin legs =
        legs.map (fun q =>
          if q.ptype == PositionType.Future &&
             !(q.long_short == larger_side legs q.variety) then
            { q with margin := 0, total_margin := 0 }
          else q) := by
    intro hfut
    unfold process_larger_side_margin
    rw [hh]
    simp only [hex]
    have h1 : ¬ (Exchange.SHFE ≠ Exchange.CFFEX ∧ Exchange.SHFE ≠ Exchange.SHFE) := by
      simp
    rw [if_neg h1, if_neg hfut, if_neg (by simp : ¬ Exchange.SHFE = Exchange.CFFEX)]
  refine ⟨?_, ?_, ?_⟩
  · intro hf hlt
    have hfut : ¬ legs.all (fun q => !(q.ptype == PositionType.Future)) = true := by
      intro hall
      have := List.all_eq_true.mp hall p hpmem
      simp [hf] at this
    rw [hreduce hfut, List.get?_map, hi]
    have hls := larger_side_eq_other legs p hpmem hf hpos hlt
    have hne : ¬ (p.long_short == larger_side legs p.variety) = true := by
      rw [hls]
      simp
      exact fun hc => side_other_ne p.long_short hc.symm
    rw [Option.map_some']
    congr 1
    rw [if_pos]
    simp only [hf, beq_self_eq_true, Bool.true_and]
    simp only [Bool.not_eq_true'] at hne ⊢
    cases hb : (p.long_short == larger_side legs p.variety)
    · rfl
    · exact absurd hb hne
  · intro hf hgt
    have hfut : ¬ legs.all (fun q => !(q.ptype == PositionType.Future)) = true := by
      intro hall
      have := List.all_eq_true.mp hall p hpmem
      simp [hf] at this
    rw [hreduce hfut, List.get?_map, hi]
    have hls := larger_side_eq_self legs p hpmem hf hgt
    rw [Option.map_some']
    congr 1
    rw [if_neg]
    rw [hls]
    simp
  · intro hnf
    by_cases hfut : legs.all (fun q => !(q.ptype == PositionType.Future)) = true
    · unfold process_larger_side_margin
      rw [hh]
      simp only [hex]
      have h1 : ¬ (Exchange.SHFE ≠ Exchange.CFFEX ∧ Exchange.SHFE ≠ Exchange.SHFE) := by
        simp
      rw [if_neg h1, if_pos hfut]
      exact hi
    · rw [hreduce hfut, List.get?_map, hi]
      rw [Option.map_some']
      congr 1
      rw [if_neg]
      simp [hnf]

/-- Scenario S4 legs for the witness: copper long 3 lots at total 90000,
copper short 1 lot at total 30000, aluminium long 1 lot at total 20000,
aluminium short 2 lots at total 40000, all SHFE futures. -/
def s4CuLong : Pos :=
  { defaultPos with
    code := "CU2401"
    code_dir := "CU2401.L"
    exchange := Exchange.SHFE
    variety := "CU"
    long_short := Side.long
    quantity := 3
    margin := 30000
    total_margin := 90000 }

def s4CuShort : Pos :=
  { defaultPos with
    code := "CU2401"
    code_dir := "CU2401.S"
    exchange := Exchange.SHFE
    variety := "CU"
    long_short := Side.short
    quantity := 1
    margin := 30000
    total_margin := 30000 }

def s4AlLong : Pos :=
  { defaultPos with
    code := "AL2401"
    code_dir := "AL2401.L"
    exchange := Exchange.SHFE
    variety := "AL"
    long_short := Side.long
    quantity := 1
    margin := 20000
    total_margin := 20000 }

def s4AlShort : Pos :=
  { defaultPos with
    code := "AL2401"
    code_dir := "AL2401.S"
    exchange := Exchange.SHFE
    variety := "AL"
    long_short := Side.short
    quantity := 2
    margin := 20000
    total_margin := 40000 }

def s4Legs : List Pos := [s4CuLong, s4CuShort, s4AlLong, s4AlShort]

/-- Witness for claim C5: on the S4 account the copper short leg, whose
side sums to 30000 against 90000, is zeroed, while the aluminium short
leg, whose side sums to 40000 against 20000, is kept unchanged. -/
theorem shfe_netting_per_variety_witness :
    (process_larger_side_margin s4Legs).get? 1 =
      some { s4CuShort with margin := 0, total_margin := 0 } ∧
    (process_larger_side_margin s4Legs).get? 3 = some s4AlShort := by
  constructor
  · refine (shfe_netting_per_variety s4Legs s4CuLong rfl rfl (by decide) 1 s4CuShort
      rfl).1 rfl ?_
    have h1 : side_total s4Legs s4CuShort.variety s4CuShort.long_short = 30000 + 0 := rfl
    have h2 : side_total s4Legs s4CuShort.variety s4CuShort.long_short.other =
        90000 + 0 := rfl
    rw [h1, h2]
    norm_num
  · refine (shfe_netting_per_variety s4Legs s4CuLong rfl rfl (by decide) 3 s4AlShort
      rfl).2.1 rfl ?_
    have h1 : side_total s4Legs s4AlShort.variety s4AlShort.long_short.other =
        20000 + 0 := rfl
    have h2 : side_total s4Legs s4AlShort.variety s4AlShort.long_short = 40000 + 0 := rfl
    rw [h1, h2]
    norm_num

/-! MILP path of margin_optimizer.MarginOptimizer._optimize.  A leg row
carries code_dir, quantity and per-unit margin; an enumerated strategy
carries the code_dir pair, combined margin and margin_saving; a solver
answer attaches one count to each enumerated strategy. -/

structure Leg where
  code_dir : String
  quantity : ℕ
  margin : ℚ
deriving DecidableEq

structure Strat where
  cd1 : String
  cd2 : String
  margin : ℚ
  saving : ℚ
deriving DecidableEq

/-- First index of the leg whose code_dir equals c, the lookup
self.holding_separated.index[self.holding_separated.code_dir == pos][0]
used to build the incidence matrix. -/
def firstIdx (legs : List Leg) (c : String) : Option ℕ :=
  match legs with
  | [] => none
  | l :: ls => if l.code_dir = c then some 0 else (firstIdx ls c).map (fun j => j + 1)

/-- Entry A[i, j] of the incidence matrix built in _optimize: the code
sets A[i1, j] = 1 and A[i2, j] = 1 at the looked-up indices of the two
legs of strategy j. -/
def Aentry (legs : List Leg) (s : Strat) (i : ℕ) : ℚ :=
  if firstIdx legs s.cd1 = some i ∨ firstIdx legs s.cd2 = some i then 1 else 0

/-- Row i of the matrix product A @ x. -/
def rowAx (legs : List Leg) (pairs : List (Strat × ℕ)) (i : ℕ) : ℚ :=
  pairs.foldr (fun sp acc => Aentry legs sp.1 i * (sp.2 : ℚ) + acc) 0

/-- Sum of the counts x_s over the strategy instances whose code_dir
pair contains c, the load that the spec text puts on a leg. -/
def claimLoad (pairs : List (Strat × ℕ)) (c : String) : ℕ :=
  pairs.foldr (fun sp acc => if sp.1.cd1 = c ∨ sp.1.cd2 = c then sp.2 + acc else acc) 0

/-- Residual quantity of row i, the expression ub - A @ res.x of
_optimize. -/
def residual (legs : List Leg) (pairs : List (Strat × ℕ)) (i : ℕ) : ℚ :=
  match legs.get? i with
  | some l => (l.quantity : ℚ) - rowAx legs pairs i
  | none => 0

lemma firstIdx_some (legs : List Leg) (c : String) (i : ℕ)
    (h : firstIdx legs c = some i) :
    ∃ l, legs.get? i = some l ∧ l.code_dir = c := by
  induction legs generalizing i with
  | nil => simp [firstIdx] at h
  | cons a as ih =>
    by_cases ha : a.code_dir = c
    · rw [firstIdx, if_pos ha] at h
      obtain rfl : (0 : ℕ) = i := Option.some_injective _ h
      exact ⟨a, rfl, ha⟩
    · rw [firstIdx, if_neg ha] at h
      obtain ⟨j, hj, hji⟩ := Option.map_eq_some'.mp h
      obtain ⟨l, hl, hlc⟩ := ih j hj
      subst hji
      exact ⟨l, hl, hlc⟩

lemma firstIdx_of_get (legs : List Leg) (c : String) :
    ∀ (i : ℕ) (l : Leg), (legs.map Leg.code_dir).Nodup →
      legs.get? i = some l → l.code_dir = c → firstIdx legs c = some i := by
  induction legs with
  | nil =>
    intro i l _ hi _
    simp at hi
  | cons a as ih =>
    intro i l hnd hi hc
    rw [List.map_cons, List.nodup_cons] at hnd
    cases i with
    | zero =>
      obtain rfl : a = l := Option.some_injective _ hi
      rw [firstIdx, if_pos hc]
    | succ n =>
      rw [List.get?_cons_succ] at hi
      have hmem : l ∈ as := List.get?_mem hi
      have ha : ¬ a.code_dir = c := by
        intro hac
        apply hnd.1
        rw [hac, ← hc]
        exact List.mem_map_of_mem Leg.code_dir hmem
      rw [firstIdx, if_neg ha, ih n l hnd.2 hi hc]
      rfl

lemma firstIdx_iff (legs : List Leg) (c : String) (i : ℕ) (l : Leg)
    (hnd : (legs.map Leg.code_dir).Nodup) (hi : legs.get? i = some l) :
    (firstIdx legs c = some i ↔ c = l.code_dir) := by
  constructor
  · intro h
    obtain ⟨l2, hl2, hlc⟩ := firstIdx_some legs c i h
    rw [hi] at hl2
    obtain rfl : l = l2 := Option.some_injective _ hl2
    exact hlc.symm
  · intro h
    exact firstIdx_of_get legs c i l hnd hi h.symm

lemma rowAx_eq_claimLoad (legs : List Leg) (pairs : List (Strat × ℕ))
    (i : ℕ) (l : Leg)
    (hnd : (legs.map Leg.code_dir).Nodup) (hi : legs.get? i = some l) :
    rowAx legs pairs i = (claimLoad pairs l.code_dir : ℚ) := by
  induction pairs with
  | nil => simp [rowAx, claimLoad]
  | cons sp ps ih =>
    have h1 : rowAx legs (sp :: ps) i =
        Aentry legs sp.1 i * (sp.2 : ℚ) + rowAx legs ps i := rfl
    have h2 : claimLoad (sp :: ps) l.code_dir =
        if sp.1.cd1 = l.code_dir ∨ sp.1.cd2 = l.code_dir
        then sp.2 + claimLoad ps l.code_dir else claimLoad ps l.code_dir := rfl
    have hcond : (firstIdx legs sp.1.cd1 = some i ∨ firstIdx legs sp.1.cd2 = some i) ↔
        (sp.1.cd1 = l.code_dir ∨ sp.1.cd2 = l.code_dir) := by
      rw [firstIdx_iff legs sp.1.cd1 i l hnd hi, firstIdx_iff legs sp.1.cd2 i l hnd hi]
    rw [h1, h2]
    by_cases hc : sp.1.cd1 = l.code_dir ∨ sp.1.cd2 = l.code_dir
    · rw [Aentry, if_pos (hcond.mpr hc), if_pos hc, ih]
      push_cast
      ring
    · rw [Aentry, if_neg (fun h => hc (hcond.mp h)), if_neg hc, ih]
      ring

/-- Claim C1.  MILP capacity: whenever the solver answer satisfies the
row constraints A x that the code builds (scipy guarantees the
LinearConstraint bounds 0 and quantity on success), every leg carries a
load of at most its quantity, and the residual row quantity ub - A x of
the output equals quantity minus that load and is non-negative. -/
theorem milp_capacity_residual (legs : List Leg) (pairs : List (Strat × ℕ))
    (hnd : (legs.map Leg.code_dir).Nodup)
    (hfeas : ∀ j m, legs.get? j = some m → rowAx legs pairs j ≤ (m.quantity : ℚ))
    (i : ℕ) (l : Leg) (hi : legs.get? i = some l) :
    (claimLoad pairs l.code_dir : ℚ) ≤ (l.quantity : ℚ) ∧
    residual legs pairs i = (l.quantity : ℚ) - (claimLoad pairs l.code_dir : ℚ) ∧
    0 ≤ residual legs pairs i := by
  have hr := rowAx_eq_claimLoad legs pairs i l hnd hi
  have hf := hfeas i l hi
  have hres : residual legs pairs i = (l.quantity : ℚ) - rowAx legs pairs i := by
    rw [residual, hi]
  refine ⟨?_, ?_, ?_⟩
  · rw [← hr]
    exact hf
  · rw [hres, hr]
  · rw [hres]
    linarith

/-- Scenario S1 legs and the enumerated calendar spread with count two,
used to witness the MILP theorems. -/
def s1Legs : List Leg :=
  [⟨"M2401.L", 3, 8000⟩, ⟨"M2405.S", 2, 9000⟩]

def s1Pairs : List (Strat × ℕ) :=
  [(⟨"M2401.L", "M2405.S", 9000, 8000⟩, 2)]

lemma s1_feasible : ∀ j m, s1Legs.get? j = some m →
    rowAx s1Legs s1Pairs j ≤ (m.quantity : ℚ) := by
  intro j m hj
  match j with
  | 0 =>
    obtain rfl : (⟨"M2401.L", 3, 8000⟩ : Leg) = m := Option.some_injective _ hj
    have h : rowAx s1Legs s1Pairs 0 = 1 * 2 + 0 := rfl
    rw [h]
    norm_num
  | 1 =>
    obtain rfl : (⟨"M2405.S", 2, 9000⟩ : Leg) = m := Option.some_injective _ hj
    have h : rowAx s1Legs s1Pairs 1 = 1 * 2 + 0 := rfl
    rw [h]
    norm_num
  | (n + 2) => simp [s1Legs] at hj

/-- Witness for claim C1 at scenario S1: the long leg of quantity three
carries load two, leaving residual one. -/
theorem milp_capacity_residual_witness :
    (claimLoad s1Pairs "M2401.L" : ℚ) ≤ ((3 : ℕ) : ℚ) ∧
    residual s1Legs s1Pairs 0 = ((3 : ℕ) : ℚ) - (claimLoad s1Pairs "M2401.L" : ℚ) ∧
    0 ≤ residual s1Legs s1Pairs 0 :=
  milp_capacity_residual s1Legs s1Pairs (by decide) s1_feasible 0
    ⟨"M2401.L", 3, 8000⟩ rfl

/-- Sum of margin over the legs whose code_dir is c; under distinct
code_dir values this is the margin of the unique such leg, the value
pos.margin read by Strategy.margin_saving. -/
def marginSum (legs : List Leg) (c : String) : ℚ :=
  (legs.map (fun l => if l.code_dir = c then l.margin else 0)).sum

/-- Total posted margin before optimization, the per-leg margin times
quantity summed over the account. -/
def total_margin_before (legs : List Leg) : ℚ :=
  (legs.map (fun l => l.margin * (l.quantity : ℚ))).sum

/-- Margin carried by the residual rows of the output, each leg at its
per-unit margin times the residual quantity ub - A @ x. -/
def residual_margin_total (legs : List Leg) (pairs : List (Strat × ℕ)) : ℚ :=
  (legs.enum.map (fun il =>
    il.2.margin * ((il.2.quantity : ℚ) - rowAx legs pairs il.1))).sum

/-- Margin carried by the selected strategy rows of the output, each at
its combined margin times its count. -/
def selected_margin_total (pairs : List (Strat × ℕ)) : ℚ :=
  (pairs.map (fun sp => sp.1.margin * (sp.2 : ℚ))).sum

/-- Objective value of the solver answer, total saving times counts. -/
def saving_total (pairs : List (Strat × ℕ)) : ℚ :=
  (pairs.map (fun sp => sp.1.saving * (sp.2 : ℚ))).sum

lemma sum_map_add_split (L : List Leg) (f g : Leg → ℚ) :
    (L.map (fun l => f l + g l)).sum = (L.map f).sum + (L.map g).sum := by
  induction L with
  | nil => simp
  | cons a as ih =>
    simp only [List.map_cons, List.sum_cons, ih]
    ring

lemma sum_if_or_split (legs : List Leg) (c1 c2 : String) (hne : c1 ≠ c2) :
    (legs.map (fun l => if l.code_dir = c1 ∨ l.code_dir = c2 then l.margin else 0)).sum
      = marginSum legs c1 + marginSum legs c2 := by
  unfold marginSum
  rw [← sum_map_add_split]
  congr 1
  apply List.map_congr_left
  intro l _
  by_cases h1 : l.code_dir = c1
  · have h2 : ¬ l.code_dir = c2 := fun h2 => hne (h1.symm.trans h2)
    rw [if_pos (Or.inl h1), if_pos h1, if_neg h2]
    ring
  · by_cases h2 : l.code_dir = c2
    · rw [if_pos (Or.inr h2), if_neg h1, if_pos h2]
      ring
    · rw [if_neg (fun h => h.elim h1 h2), if_neg h1, if_neg h2]
      ring

lemma sum_margin_claimLoad (legs : List Leg) (pairs : List (Strat × ℕ))
    (hne : ∀ sp ∈ pairs, sp.1.cd1 ≠ sp.1.cd2) :
    (legs.map (fun l => l.margin * (claimLoad pairs l.code_dir : ℚ))).sum
      = (pairs.map (fun sp =>
          (marginSum legs sp.1.cd1 + marginSum legs sp.1.cd2) * (sp.2 : ℚ))).sum := by
  induction pairs with
  | nil => simp [claimLoad]
  | cons sp ps ih =>
    have hstep : ∀ l : Leg,
        l.margin * (claimLoad (sp :: ps) l.code_dir : ℚ)
          = (if l.code_dir = sp.1.cd1 ∨ l.code_dir = sp.1.cd2 then l.margin else 0)
              * (sp.2 : ℚ)
            + l.margin * (claimLoad ps l.code_dir : ℚ) := by
      intro l
      have h2 : claimLoad (sp :: ps) l.code_dir =
          if sp.1.cd1 = l.code_dir ∨ sp.1.cd2 = l.code_dir
          then sp.2 + claimLoad ps l.code_dir else claimLoad ps l.code_dir := rfl
      rw [h2]
      by_cases hc : sp.1.cd1 = l.code_dir ∨ sp.1.cd2 = l.code_dir
      · rw [if_pos hc, if_pos (by tauto)]
        push_cast
        ring
      · rw [if_neg hc, if_neg (by tauto)]
        ring
    calc (legs.map (fun l => l.margin * (claimLoad (sp :: ps) l.code_dir : ℚ))).sum
        = (legs.map (fun l =>
            (if l.code_dir = sp.1.cd1 ∨ l.code_dir = sp.1.cd2 then l.margin else 0)
              * (sp.2 : ℚ)
            + l.margin * (claimLoad ps l.code_dir : ℚ))).sum := by
          apply congrArg
          apply List.map_congr_left
          intro l _
          exact hstep l
      _ = ((legs.map (fun l =>
            (if l.code_dir = sp.1.cd1 ∨ l.code_dir = sp.1.cd2 then l.margin else 0))).sum)
              * (sp.2 : ℚ)
            + (legs.map (fun l => l.margin * (claimLoad ps l.code_dir : ℚ))).sum := by
          rw [sum_map_add_split]
          congr 1
          rw [← List.sum_map_mul_right]
      _ = (marginSum legs sp.1.cd1 + marginSum legs sp.1.cd2) * (sp.2 : ℚ)
            + (ps.map (fun sp =>
                (marginSum legs sp.1.cd1 + marginSum legs sp.1.cd2) * (sp.2 : ℚ))).sum := by
          rw [sum_if_or_split legs sp.1.cd1 sp.1.cd2 (hne sp (List.mem_cons_self sp ps)),
            ih (fun q hq => hne q (List.mem_cons_of_mem sp hq))]
      _ = ((sp :: ps).map (fun sp =>
            (marginSum legs sp.1.cd1 + marginSum legs sp.1.cd2) * (sp.2 : ℚ))).sum := by
          rw [List.map_cons, List.sum_cons]

lemma residual_margin_total_eq (legs : List Leg) (pairs : List (Strat × ℕ))
    (hnd : (legs.map Leg.code_dir).Nodup) :
    residual_margin_total legs pairs =
      (legs.map (fun l =>
        l.margin * ((l.quantity : ℚ) - (claimLoad pairs l.code_dir : ℚ)))).sum := by
  unfold residual_margin_total
  have hptw : legs.enum.map (fun il =>
      il.2.margin * ((il.2.quantity : ℚ) - rowAx legs pairs il.1)) =
      legs.enum.map (fun il =>
        il.2.margin * ((il.2.quantity : ℚ) - (claimLoad pairs il.2.code_dir : ℚ))) := by
    apply List.map_congr_left
    intro il hil
    obtain ⟨i, l⟩ := il
    have hg : legs.get? i = some l := by
      rw [List.get?_eq_getElem?]
      exact List.mk_mem_enum_iff_getElem?.mp hil
    dsimp only
    rw [rowAx_eq_claimLoad legs pairs i l hnd hg]
  rw [hptw]
  have hsnd : legs.enum.map (fun il =>
      il.2.margin * ((il.2.quantity : ℚ) - (claimLoad pairs il.2.code_dir : ℚ))) =
      legs.map (fun l =>
        l.margin * ((l.quantity : ℚ) - (claimLoad pairs l.code_dir : ℚ))) := by
    have hcomp : (fun il : ℕ × Leg =>
        il.2.margin * ((il.2.quantity : ℚ) - (claimLoad pairs il.2.code_dir : ℚ))) =
        (fun l : Leg =>
          l.margin * ((l.quantity : ℚ) - (claimLoad pairs l.code_dir : ℚ))) ∘ Prod.snd := by
      rfl
    rw [hcomp, ← List.map_map, List.enum_map_snd]
  rw [hsnd]

lemma saving_total_nonneg (pairs : List (Strat × ℕ))
    (hsav : ∀ sp ∈ pairs, 0 < sp.1.saving) : 0 ≤ saving_total pairs := by
  unfold saving_total
  induction pairs with
  | nil => simp
  | cons sp ps ih =>
    simp only [List.map_cons, List.sum_cons]
    have h1 : 0 ≤ sp.1.saving * (sp.2 : ℚ) := by
      have := le_of_lt (hsav sp (List.mem_cons_self sp ps))
      positivity
    have h2 := ih (fun q hq => hsav q (List.mem_cons_of_mem sp hq))
    linarith

lemma saving_plus_selected (legs : List Leg) (pairs : List (Strat × ℕ))
    (hsaveq : ∀ sp ∈ pairs,
      sp.1.saving = marginSum legs sp.1.cd1 + marginSum legs sp.1.cd2 - sp.1.margin) :
    (pairs.map (fun sp =>
      (marginSum legs sp.1.cd1 + marginSum legs sp.1.cd2) * (sp.2 : ℚ))).sum =
      saving_total pairs + selected_margin_total pairs := by
  unfold saving_total selected_margin_total
  induction pairs with
  | nil => simp
  | cons sp ps ih =>
    simp only [List.map_cons, List.sum_cons]
    have hs := hsaveq sp (List.mem_cons_self sp ps)
    rw [ih (fun q hq => hsaveq q (List.mem_cons_of_mem sp hq)), hs]
    ring

/-- Claim C2.  MILP optimality and monotonicity: for an account on the
MILP path, the total posted margin of the output, residual rows plus
selected strategy rows, equals the pre-optimization total minus the
objective value, and since only strategies of strictly positive
margin_saving are enumerated and counts are naturals, it never exceeds
the pre-optimization total. -/
theorem milp_total_margin_bound (legs : List Leg) (pairs : List (Strat × ℕ))
    (hnd : (legs.map Leg.code_dir).Nodup)
    (hne : ∀ sp ∈ pairs, sp.1.cd1 ≠ sp.1.cd2)
    (hsaveq : ∀ sp ∈ pairs,
      sp.1.saving = marginSum legs sp.1.cd1 + marginSum legs sp.1.cd2 - sp.1.margin)
    (hsavpos : ∀ sp ∈ pairs, 0 < sp.1.saving) :
    residual_margin_total legs pairs + selected_margin_total pairs =
      total_margin_before legs - saving_total pairs ∧
    residual_margin_total legs pairs + selected_margin_total pairs ≤
      total_margin_before legs := by
  have hmain : residual_margin_total legs pairs + selected_margin_total pairs =
      total_margin_before legs - saving_total pairs := by
    rw [residual_margin_total_eq legs pairs hnd]
    have hsplit : (legs.map (fun l =>
        l.margin * ((l.quantity : ℚ) - (claimLoad pairs l.code_dir : ℚ)))).sum =
        total_margin_before legs
          - (legs.map (fun l => l.margin * (claimLoad pairs l.code_dir : ℚ))).sum := by
      unfold total_margin_before
      rw [eq_sub_iff_add_eq, ← sum_map_add_split]
      apply congrArg
      apply List.map_congr_left
      intro l _
      ring
    rw [hsplit, sum_margin_claimLoad legs pairs hne,
      saving_plus_selected legs pairs hsaveq]
    ring
  refine ⟨hmain, ?_⟩
  rw [hmain]
  have := saving_total_nonneg pairs hsavpos
  linarith

/-- Witness for claim C2 at scenario S1: two calendar spreads at margin
9000 with one residual long lot at 8000 total 26000, against 42000
before optimization. -/
theorem milp_total_margin_bound_witness :
    residual_margin_total s1Legs s1Pairs + selected_margin_total s1Pairs =
      total_margin_before s1Legs - saving_total s1Pairs ∧
    residual_margin_total s1Legs s1Pairs + selected_margin_total s1Pairs ≤
      total_margin_before s1Legs := by
  refine milp_total_margin_bound s1Legs s1Pairs (by decide) ?_ ?_ ?_
  · intro sp hsp
    obtain rfl : sp = (⟨⟨"M2401.L", "M2405.S", 9000, 8000⟩, 2⟩ : Strat × ℕ) := by
      simpa [s1Pairs] using hsp
    decide
  · intro sp hsp
    obtain rfl : sp = (⟨⟨"M2401.L", "M2405.S", 9000, 8000⟩, 2⟩ : Strat × ℕ) := by
      simpa [s1Pairs] using hsp
    have h1 : marginSum s1Legs "M2401.L" = 8000 + (0 + 0) := rfl
    have h2 : marginSum s1Legs "M2405.S" = 0 + (9000 + 0) := rfl
    show (8000 : ℚ) = marginSum s1Legs "M2401.L" + marginSum s1Legs "M2405.S" - 9000
    rw [h1, h2]
    norm_num
  · intro sp hsp
    obtain rfl : sp = (⟨⟨"M2401.L", "M2405.S", 9000, 8000⟩, 2⟩ : Strat × ℕ) := by
      simpa [s1Pairs] using hsp
    norm_num

/-! Options strategy family of strategy.py: OptionsStrategy.modify_positions,
the is_valid predicates in the definition order that __subclasses__
yields, their margin formulas, and the analyzer dispatch. -/

/-- Strategy variant tags of strategy.py. -/
inductive StratType where
  | FutureLockPosition
  | CalendarSpread
  | InterCommoditySpread
  | BullCallSpread
  | BearCallSpread
  | BullPutSpread
  | BearPutSpread
  | Straddle
  | Strangle
  | OptionLockPosition
  | AutoHedging
  | CoveredCall
  | CoveredPut
  | ProtectiveCall
  | ProtectivePut
deriving DecidableEq

/-- Tolerance constant 1e-6 of the strike comparisons. -/
def eps : ℚ := 1 / 1000000

/-- OptionsStrategy.modify_positions: when one leg is long and the
other short, the short leg moves to the second slot; when both share a
side with a call first and a put second, the put moves first. -/
def optionsModify (p1 p2 : Pos) : Pos × Pos :=
  if p1.long_short = Side.short ∧ p2.long_short = Side.long then (p2, p1)
  else if p1.long_short = p2.long_short ∧
      p1.call_put = CallPut.call ∧ p2.call_put = CallPut.put then (p2, p1)
  else (p1, p2)

def bullCallValid (p1 p2 : Pos) : Prop :=
  p1.option_mark_code = p2.option_mark_code ∧
  p1.last_tradedate = p2.last_tradedate ∧
  p1.long_short ≠ p2.long_short ∧
  p1.call_put = CallPut.call ∧
  p2.call_put = CallPut.call ∧
  p1.strike_price - p2.strike_price < -eps ∧
  p1.exchange ∈ [Exchange.SSE, Exchange.SZSE, Exchange.DCE, Exchange.GFEX]

instance (p1 p2 : Pos) : Decidable (bullCallValid p1 p2) := by
  unfold bullCallValid
  infer_instance

def bearCallValid (p1 p2 : Pos) : Prop :=
  p1.option_mark_code = p2.option_mark_code ∧
  p1.last_tradedate = p2.last_tradedate ∧
  p1.long_short ≠ p2.long_short ∧
  p1.call_put = CallPut.call ∧
  p2.call_put = CallPut.call ∧
  p1.strike_price - p2.strike_price > eps ∧
  p1.exchange ∈ [Exchange.SSE, Exchange.SZSE, Exchange.DCE, Exchange.GFEX]

instance (p1 p2 : Pos) : Decidable (bearCallValid p1 p2) := by
  unfold bearCallValid
  infer_instance

def bullPutValid (p1 p2 : Pos) : Prop :=
  p1.option_mark_code = p2.option_mark_code ∧
  p1.last_tradedate = p2.last_tradedate ∧
  p1.long_short ≠ p2.long_short ∧
  p1.call_put = CallPut.put ∧
  p2.call_put = CallPut.put ∧
  p1.strike_price - p2.strike_price < -eps ∧
  p1.exchange ∈ [Exchange.SSE, Exchange.SZSE, Exchange.DCE, Exchange.GFEX]

instance (p1 p2 : Pos) : Decidable (bullPutValid p1 p2) := by
  unfold bullPutValid
  infer_instance

def bearPutValid (p1 p2 : Pos) : Prop :=
  p1.option_mark_code = p2.option_mark_code ∧
  p1.last_tradedate = p2.last_tradedate ∧
  p1.long_short ≠ p2.long_short ∧
  p1.call_put = CallPut.put ∧
  p2.call_put = CallPut.put ∧
  p1.strike_price - p2.strike_price > eps ∧
  p1.exchange ∈ [Exchange.SSE, Exchange.SZSE, Exchange.DCE, Exchange.GFEX]

instance (p1 p2 : Pos) : Decidable (bearPutValid p1 p2) := by
  unfold bearPutValid
  infer_instance

def straddleValid (p1 p2 : Pos) : Prop :=
  p1.option_mark_code = p2.option_mark_code ∧
  p1.last_tradedate = p2.last_tradedate ∧
  p1.long_short = Side.short ∧
  p2.long_short = Side.short ∧
  p1.call_put ≠ p2.call_put ∧
  |p1.strike_price - p2.strike_price| < eps ∧
  p1.exchange ∈ [Exchange.SSE, Exchange.SZSE, Exchange.CZCE, Exchange.DCE, Exchange.GFEX]

instance (p1 p2 : Pos) : Decidable (straddleValid p1 p2) := by
  unfold straddleValid
  infer_instance

def strangleValid (p1 p2 : Pos) : Prop :=
  p1.option_mark_code = p2.option_mark_code ∧
  p1.last_tradedate = p2.last_tradedate ∧
  p1.long_short = Side.short ∧
  p2.long_short = Side.short ∧
  p1.call_put ≠ p2.call_put ∧
  p1.strike_price - p2.strike_price < -eps ∧
  p1.exchange ∈ [Exchange.SSE, Exchange.SZSE, Exchange.CZCE, Exchange.DCE, Exchange.GFEX]

instance (p1 p2 : Pos) : Decidable (strangleValid p1 p2) := by
  unfold strangleValid
  infer_instance

def optionLockValid (p1 p2 : Pos) : Prop :=
  p1.code = p2.code ∧
  p1.long_short ≠ p2.long_short ∧
  p1.exchange ∈ [Exchange.DCE, Exchange.GFEX]

instance (p1 p2 : Pos) : Decidable (optionLockValid p1 p2) := by
  unfold optionLockValid
  infer_instance

def autoHedgingValid (p1 p2 : Pos) (is_close : Bool) : Prop :=
  p1.code = p2.code ∧
  p1.long_short ≠ p2.long_short ∧
  p1.exchange ∈ [Exchange.SSE, Exchange.SZSE] ∧
  is_close = true

instance (p1 p2 : Pos) (ic : Bool) : Decidable (autoHedgingValid p1 p2 ic) := by
  unfold autoHedgingValid
  infer_instance

/-- BullCallSpread.margin: zero on the equity exchanges, one fifth of
the short margin on the commodity exchanges. -/
def bullCallMargin (p1 p2 : Pos) : ℚ :=
  if p1.exchange = Exchange.SSE ∨ p1.exchange = Exchange.SZSE then 0
  else p2.margin * (2 / 10)

/-- BearCallSpread.margin of strategy.py: the strike difference times
the multiplier of the first leg on every admissible exchange. -/
def bearCallMargin (p1 p2 : Pos) : ℚ :=
  (p1.strike_price - p2.strike_price) * p1.multiplier

def bullPutMargin (p1 p2 : Pos) : ℚ :=
  (p2.strike_price - p1.strike_price) * p2.multiplier

def bearPutMargin (p1 p2 : Pos) : ℚ :=
  if p1.exchange = Exchange.SSE ∨ p1.exchange = Exchange.SZSE then 0
  else p2.margin * (2 / 10)

/-- Straddle.calc_margin: the leg of larger margin keeps its margin and
the other contributes close price times multiplier, close price breaking
margin ties. -/
def straddle_calc_margin (p1 p2 : Pos) : ℚ :=
  if p1.margin - p2.margin > eps then p1.margin + p2.close_price * p2.multiplier
  else if p1.margin - p2.margin < -eps then p2.margin + p1.close_price * p1.multiplier
  else if p1.close_price - p2.close_price > eps then p1.margin + p2.close_price * p2.multiplier
  else p2.margin + p1.close_price * p1.multiplier

def optionLockMargin (p1 p2 : Pos) : ℚ :=
  p2.margin * (2 / 10)

/-- OptionsStrategyAnalyzer.analyze on the already normalized pair: the
first valid variant in definition order wins, with its combined margin. -/
def optionsDispatch (p1 p2 : Pos) (is_close : Bool) : Option (StratType × ℚ) :=
  if bullCallValid p1 p2 then some (StratType.BullCallSpread, bullCallMargin p1 p2)
  else if bearCallValid p1 p2 then some (StratType.BearCallSpread, bearCallMargin p1 p2)
  else if bullPutValid p1 p2 then some (StratType.BullPutSpread, bullPutMargin p1 p2)
  else if bearPutValid p1 p2 then some (StratType.BearPutSpread, bearPutMargin p1 p2)
  else if straddleValid p1 p2 then some (StratType.Straddle, straddle_calc_margin p1 p2)
  else if strangleValid p1 p2 then some (StratType.Strangle, straddle_calc_margin p1 p2)
  else if optionLockValid p1 p2 then some (StratType.OptionLockPosition, optionLockMargin p1 p2)
  else if autoHedgingValid p1 p2 is_close then some (StratType.AutoHedging, 0)
  else none

/-- OptionsStrategyAnalyzer.analyze on a raw pair: normalization swap
followed by dispatch. -/
def optionsAnalyze (pos1 pos2 : Pos) (is_close : Bool) : Option (StratType × ℚ) :=
  optionsDispatch (optionsModify pos1 pos2).1 (optionsModify pos1 pos2).2 is_close

/-- Strategy.margin_saving of strategy.py: the margins of the two
normalized legs minus the combined margin. -/
def margin_saving (p1 p2 : Pos) (m : ℚ) : ℚ :=
  p1.margin + p2.margin - m

/-- Analysis record (type, margin, margin_saving) built by
MarginOptimizer._analyze_strategy for an options pair. -/
def optionsAnalyzeFull (pos1 pos2 : Pos) (is_close : Bool) :
    Option (StratType × ℚ × ℚ) :=
  (optionsAnalyze pos1 pos2 is_close).map (fun tm =>
    (tm.1, tm.2,
      margin_saving (optionsModify pos1 pos2).1 (optionsModify pos1 pos2).2 tm.2))

lemma optionsModify_id (p1 p2 : Pos) (hl : p1.long_short = Side.long)
    (hside : p1.long_short ≠ p2.long_short) :
    optionsModify p1 p2 = (p1, p2) := by
  unfold optionsModify
  rw [if_neg, if_neg]
  · intro h
    exact hside h.1
  · intro h
    rw [hl] at h
    exact absurd h.1.symm (by simp)

lemma eps_pos : 0 < eps := by
  norm_num [eps]

lemma optionsDispatch_bearCall (p1 p2 : Pos) (ic : Bool)
    (hv : bearCallValid p1 p2) :
    optionsDispatch p1 p2 ic =
      some (StratType.BearCallSpread, (p1.strike_price - p2.strike_price) * p1.multiplier) := by
  have hnb : ¬ bullCallValid p1 p2 := by
    intro hb
    have h1 := hb.2.2.2.2.2.1
    have h2 := hv.2.2.2.2.2.1
    have := eps_pos
    linarith
  unfold optionsDispatch
  rw [if_neg hnb, if_pos hv]
  rfl

lemma optionsDispatch_autoHedging (p1 p2 : Pos)
    (hcode : p1.code = p2.code)
    (hside : p1.long_short ≠ p2.long_short)
    (hex : p1.exchange = Exchange.SSE ∨ p1.exchange = Exchange.SZSE)
    (hK : p1.strike_price = p2.strike_price) :
    ∀ ic : Bool, optionsDispatch p1 p2 ic =
      if ic then some (StratType.AutoHedging, 0) else none := by
  intro ic
  have hKz : p1.strike_price - p2.strike_price = 0 := by
    rw [hK]
    ring
  have hepos := eps_pos
  have hnb1 : ¬ bullCallValid p1 p2 := by
    intro hb
    have := hb.2.2.2.2.2.1
    rw [hKz] at this
    linarith
  have hnb2 : ¬ bearCallValid p1 p2 := by
    intro hb
    have := hb.2.2.2.2.2.1
    rw [hKz] at this
    linarith
  have hnb3 : ¬ bullPutValid p1 p2 := by
    intro hb
    have := hb.2.2.2.2.2.1
    rw [hKz] at this
    linarith
  have hnb4 : ¬ bearPutValid p1 p2 := by
    intro hb
    have := hb.2.2.2.2.2.1
    rw [hKz] at this
    linarith
  have hnb5 : ¬ straddleValid p1 p2 := by
    intro hb
    exact hside (hb.2.2.1.trans hb.2.2.2.1.symm)
  have hnb6 : ¬ strangleValid p1 p2 := by
    intro hb
    exact hside (hb.2.2.1.trans hb.2.2.2.1.symm)
  have hnb7 : ¬ optionLockValid p1 p2 := by
    intro hb
    have := hb.2.2
    rcases hex with h | h <;> rw [h] at this <;> simp at this
  unfold optionsDispatch
  rw [if_neg hnb1, if_neg hnb2, if_neg hnb3, if_neg hnb4, if_neg hnb5,
    if_neg hnb6, if_neg hnb7]
  cases ic with
  | true =>
    rw [if_pos ⟨hcode, hside, by rcases hex with h | h <;> rw [h] <;> simp, rfl⟩]
    rfl
  | false =>
    rw [if_neg]
    · rfl
    · intro hb
      exact absurd hb.2.2.2 (by simp)

/-- Claim C3, amended.  For every normalized BearCallSpread pair, long
call first and short call second, strategy.py computes the combined
margin as the strike difference times the multiplier of the first leg
on all four admissible exchanges; no minimum against the short margin
is taken on the commodity exchanges. -/
theorem bear_call_spread_margin (p1 p2 : Pos) (ic : Bool)
    (hv : bearCallValid p1 p2) (hl : p1.long_short = Side.long) :
    optionsAnalyze p1 p2 ic =
      some (StratType.BearCallSpread,
        (p1.strike_price - p2.strike_price) * p1.multiplier) := by
  have hm := optionsModify_id p1 p2 hl hv.2.2.1
  unfold optionsAnalyze
  rw [hm]
  exact optionsDispatch_bearCall p1 p2 ic hv

/-- Concrete DCE bear call spread: long call at strike 5, short call at
strike 4, multiplier 10, short margin 2. -/
def c3p1 : Pos :=
  { defaultPos with
    code := "M2405-C-5000"
    code_dir := "M2405-C-5000.L"
    exchange := Exchange.DCE
    ptype := PositionType.Option
    long_short := Side.long
    call_put := CallPut.call
    strike_price := 5
    multiplier := 10
    margin := 0
    option_mark_code := "M2405"
    last_tradedate := "20240401" }

def c3p2 : Pos :=
  { defaultPos with
    code := "M2405-C-4000"
    code_dir := "M2405-C-4000.S"
    exchange := Exchange.DCE
    ptype := PositionType.Option
    long_short := Side.short
    call_put := CallPut.call
    strike_price := 4
    multiplier := 10
    margin := 2
    option_mark_code := "M2405"
    last_tradedate := "20240401" }

lemma c3_valid : bearCallValid c3p1 c3p2 := by
  refine ⟨rfl, rfl, by decide, rfl, rfl, ?_, by decide⟩
  show (5 : ℚ) - 4 > eps
  norm_num [eps]

/-- Witness for claim C3: the concrete DCE pair analyzed to a
BearCallSpread whose combined margin is the strike difference times the
multiplier. -/
theorem bear_call_spread_margin_witness :
    optionsAnalyze c3p1 c3p2 false =
      some (StratType.BearCallSpread,
        (c3p1.strike_price - c3p2.strike_price) * c3p1.multiplier) :=
  bear_call_spread_margin c3p1 c3p2 false c3_valid rfl

/-- Counterexample to claim C3 as stated: on the commodity exchange DCE
the code returns strike difference times multiplier, 10, and not the
claimed minimum against the short margin, 2. -/
theorem bear_call_spread_counterexample :
    optionsAnalyze c3p1 c3p2 false = some (StratType.BearCallSpread, 10) ∧
    c3p1.exchange = Exchange.DCE ∧
    min ((c3p1.strike_price - c3p2.strike_price) * c3p1.multiplier) c3p2.margin = 2 ∧
    ¬ optionsAnalyze c3p1 c3p2 false =
      some (StratType.BearCallSpread,
        min ((c3p1.strike_price - c3p2.strike_price) * c3p1.multiplier) c3p2.margin) := by
  have hm := optionsModify_id c3p1 c3p2 rfl (by decide)
  have h1 : optionsAnalyze c3p1 c3p2 false =
      some (StratType.BearCallSpread,
        (c3p1.strike_price - c3p2.strike_price) * c3p1.multiplier) := by
    unfold optionsAnalyze
    rw [hm]
    exact optionsDispatch_bearCall c3p1 c3p2 false c3_valid
  have h2 : (c3p1.strike_price - c3p2.strike_price) * c3p1.multiplier = 10 := by
    show ((5 : ℚ) - 4) * 10 = 10
    norm_num
  have h3 : min ((c3p1.strike_price - c3p2.strike_price) * c3p1.multiplier)
      c3p2.margin = 2 := by
    rw [h2]
    show min (10 : ℚ) 2 = 2
    norm_num
  refine ⟨by rw [h1, h2], rfl, h3, ?_⟩
  rw [h1, h3, h2]
  intro hcontra
  have : (10 : ℚ) = 2 := by
    injection hcontra with h
    exact congrArg Prod.snd h
  norm_num at this

/-- Claim C4, amended.  An AutoHedging pair, same code and opposite
sides on an equity exchange with equal strikes, analyzed with the
closing flag set, yields combined margin zero with margin_saving equal
to the plain sum of the two leg margins, no penalty constant being
subtracted in strategy.py; with the closing flag unset the pair yields
no strategy at all. -/
theorem auto_hedging_margin_saving (p1 p2 : Pos)
    (hv : autoHedgingValid p1 p2 true)
    (hl : p1.long_short = Side.long)
    (hK : p1.strike_price = p2.strike_price) :
    optionsAnalyzeFull p1 p2 true =
      some (StratType.AutoHedging, 0, p1.margin + p2.margin) ∧
    optionsAnalyzeFull p1 p2 false = none := by
  obtain ⟨hcode, hside, hex, -⟩ := hv
  have hex2 : p1.exchange = Exchange.SSE ∨ p1.exchange = Exchange.SZSE := by
    simpa using hex
  have hm := optionsModify_id p1 p2 hl hside
  have hd := optionsDispatch_autoHedging p1 p2 hcode hside hex2 hK
  constructor
  · unfold optionsAnalyzeFull optionsAnalyze
    rw [hm]
    have hdt := hd true
    rw [if_pos rfl] at hdt
    rw [hdt]
    simp [margin_saving]
  · unfold optionsAnalyzeFull optionsAnalyze
    rw [hm]
    have hdf := hd false
    rw [if_neg (by simp)] at hdf
    rw [hdf]
    rfl

/-- Concrete SSE AutoHedging pair: the same option held long and short,
leg margins 0 and 2000. -/
def c4p1 : Pos :=
  { defaultPos with
    code := "10004321"
    code_dir := "10004321.L"
    exchange := Exchange.SSE
    ptype := PositionType.Option
    long_short := Side.long
    call_put := CallPut.call
    strike_price := 3
    multiplier := 10000
    margin := 0
    option_mark_code := "510050"
    last_tradedate := "20240327" }

def c4p2 : Pos :=
  { defaultPos with
    code := "10004321"
    code_dir := "10004321.S"
    exchange := Exchange.SSE
    ptype := PositionType.Option
    long_short := Side.short
    call_put := CallPut.call
    strike_price := 3
    multiplier := 10000
    margin := 2000
    option_mark_code := "510050"
    last_tradedate := "20240327" }

/-- Witness for claim C4: the concrete SSE pair hedges to margin zero
and saving 0 plus 2000 when closing, and is not enumerated otherwise. -/
theorem auto_hedging_margin_saving_witness :
    optionsAnalyzeFull c4p1 c4p2 true =
      some (StratType.AutoHedging, 0, c4p1.margin + c4p2.margin) ∧
    optionsAnalyzeFull c4p1 c4p2 false = none :=
  auto_hedging_margin_saving c4p1 c4p2 ⟨rfl, by decide, by decide, rfl⟩ rfl rfl

/-- Counterexample to claim C4 as stated: the margin_saving computed by
strategy.py for the concrete AutoHedging pair is 2000, not the claimed
sum of margins minus the penalty constant 10, which would be 1990. -/
theorem auto_hedging_counterexample :
    optionsAnalyzeFull c4p1 c4p2 true = some (StratType.AutoHedging, 0, 2000) ∧
    c4p1.margin + c4p2.margin - 10 = 1990 ∧
    ¬ optionsAnalyzeFull c4p1 c4p2 true =
      some (StratType.AutoHedging, 0, c4p1.margin + c4p2.margin - 10) := by
  have hm := optionsModify_id c4p1 c4p2 rfl (by decide)
  have hd := optionsDispatch_autoHedging c4p1 c4p2 rfl (by decide) (by decide) rfl
  have h1 : optionsAnalyzeFull c4p1 c4p2 true =
      some (StratType.AutoHedging, 0, margin_saving c4p1 c4p2 0) := by
    unfold optionsAnalyzeFull optionsAnalyze
    rw [hm]
    have hdt := hd true
    rw [if_pos rfl] at hdt
    rw [hdt]
    rfl
  have h2 : margin_saving c4p1 c4p2 0 = 2000 := by
    show (0 : ℚ) + 2000 - 0 = 2000
    norm_num
  have h3 : c4p1.margin + c4p2.margin - 10 = 1990 := by
    show (0 : ℚ) + 2000 - 10 = 1990
    norm_num
  refine ⟨by rw [h1, h2], h3, ?_⟩
  rw [h1, h2, h3]
  intro hcontra
  have : (2000 : ℚ) = 1990 := by
    injection hcontra with h
    have := congrArg Prod.snd h
    exact congrArg Prod.snd this
  norm_num at this

/-! Margin calculator of margin_utils.py and the stress engine of
margin_stress_test.py. -/

/-- MarginCalculator.calc_future evaluated at a close price. -/
def calc_future (pos : Pos) (close : ℚ) : ℚ :=
  close * pos.multiplier * pos.margin_rate

/-- MarginCalculator.calc_option evaluated at an underlying price and an
option close price; long legs pay nothing, short legs follow the
exchange formulas. -/
def calc_option (pos : Pos) (udl close : ℚ) : ℚ :=
  if pos.long_short = Side.long then 0
  else
    let otm := if pos.call_put = CallPut.call
      then max (pos.strike_price - udl) 0
      else max (udl - pos.strike_price) 0
    if pos.exchange = Exchange.SSE ∨ pos.exchange = Exchange.SZSE then
      if pos.call_put = CallPut.call then
        pos.multiplier * (close + max (0.12 * udl - otm) (0.07 * udl))
      else
        pos.multiplier *
          min (close + max (0.12 * udl - otm) (0.07 * pos.strike_price)) pos.strike_price
    else if pos.exchange = Exchange.CFFEX then
      if pos.call_put = CallPut.call then
        pos.multiplier *
          (close + max (udl * pos.margin_rate - otm) (0.5 * udl * pos.margin_rate))
      else
        pos.multiplier *
          (close + max (udl * pos.margin_rate - otm) (0.5 * pos.strike_price * pos.margin_rate))
    else
      pos.multiplier *
        (close + udl * pos.margin_rate - 0.5 * min otm (udl * pos.margin_rate))

/-- Signed quantity, positive for long and negative for short. -/
def qty_dir (pos : Pos) : ℚ :=
  (pos.quantity : ℚ) * (if pos.long_short = Side.long then 1 else -1)

/-- MarginStressTest.calc_pnl_margin_r at one scalar shock r: a future
is repriced to close times one plus r, an option is repriced by the
delta-gamma expansion of the shocked underlying; the pair holds the pnl
and the margin times quantity. -/
def calc_pnl_margin_r (pos : Pos) (r : ℚ) : ℚ × ℚ :=
  if pos.ptype = PositionType.Future then
    ((pos.close_price * (1 + r) - pos.close_price) * qty_dir pos,
      calc_future pos (pos.close_price * (1 + r)) * (pos.quantity : ℚ))
  else
    ((pos.close_price + (pos.udl_price * (1 + r) - pos.udl_price) * pos.delta
        + 0.5 * (pos.udl_price * (1 + r) - pos.udl_price) ^ 2 * pos.gamma
        - pos.close_price) * qty_dir pos,
      calc_option pos (pos.udl_price * (1 + r))
        (pos.close_price + (pos.udl_price * (1 + r) - pos.udl_price) * pos.delta
          + 0.5 * (pos.udl_price * (1 + r) - pos.udl_price) ^ 2 * pos.gamma)
        * (pos.quantity : ℚ))

/-- Sum of one side of the future legs in a zipped list of legs and
scenario margins, as sliced by calc_larger_side_margin_vec. -/
def fut_side_sum (lm : List (Pos × ℚ)) (s : Side) : ℚ :=
  ((lm.filter (fun pm =>
    pm.1.ptype == PositionType.Future && pm.1.long_short == s)).map Prod.snd).sum

/-- Sum of one side of the future legs of one variety. -/
def fut_side_sum_var (lm : List (Pos × ℚ)) (v : String) (s : Side) : ℚ :=
  ((lm.filter (fun pm =>
    pm.1.ptype == PositionType.Future && pm.1.variety == v &&
      pm.1.long_short == s)).map Prod.snd).sum

/-- Distinct varieties of the future legs, the unique() of the SHFE
branch. -/
def fut_varieties (lm : List (Pos × ℚ)) : List String :=
  ((lm.filter (fun pm => pm.1.ptype == PositionType.Future)).map
    (fun pm => pm.1.variety)).dedup

/-- Embedding of margin_utils.calc_larger_side_margin_vec at one
scenario cell: plain margin sum, less the smaller future side for CFFEX
and the per-variety smaller future sides for SHFE. -/
def calc_larger_side_margin_vec (legs : List Pos) (margins : List ℚ) : ℚ :=
  let total := margins.sum
  match legs.head? with
  | none => total
  | some hd =>
    if hd.exchange ≠ Exchange.CFFEX ∧ hd.exchange ≠ Exchange.SHFE then total
    else if legs.all (fun p => !(p.ptype == PositionType.Future)) then total
    else
      let lm := legs.zip margins
      if hd.exchange = Exchange.CFFEX then
        total - min (fut_side_sum lm Side.long) (fut_side_sum lm Side.short)
      else
        total - ((fut_varieties lm).map (fun v =>
          min (fut_side_sum_var lm v Side.long) (fut_side_sum_var lm v Side.short))).sum

/-- Account pnl at one scenario, the sum over legs. -/
def account_pnl (legs : List Pos) (r : ℚ) : ℚ :=
  (legs.map (fun p => (calc_pnl_margin_r p r).1)).sum

/-- Account margin at one scenario, netted per
calc_larger_side_margin_vec. -/
def account_margin (legs : List Pos) (r : ℚ) : ℚ :=
  calc_larger_side_margin_vec legs (legs.map (fun p => (calc_pnl_margin_r p r).2))

/-- Default target risk level of the stress engines. -/
def targetRiskDefault : ℚ := 0.95

/-- MarginScenarioAnalysis.calc_risk_ratio_supplement at one scenario:
the per-scenario risk level margin over shocked equity, and the cash
supplement max of margin over target minus shocked equity and zero. -/
def calc_risk_ratio_supplement (legs : List Pos) (equity target r : ℚ) : ℚ × ℚ :=
  (account_margin legs r / (equity + account_pnl legs r),
    max (account_margin legs r / target - (equity + account_pnl legs r)) 0)

/-- Spec wording for the pnl of a future leg: price minus close times
signed quantity at price equal to close times one plus r. -/
def spec_future_pnl (p : Pos) (r : ℚ) : ℚ :=
  (p.close_price * (1 + r) - p.close_price) *
    (if p.long_short = Side.long then (p.quantity : ℚ) else -(p.quantity : ℚ))

/-- Spec wording for the margin of a future leg: shocked price times
multiplier times margin ratio times quantity. -/
def spec_future_margin (p : Pos) (r : ℚ) : ℚ :=
  p.close_price * (1 + r) * p.multiplier * p.margin_rate * (p.quantity : ℚ)

lemma calc_pnl_future_fst (p : Pos) (r : ℚ) (hf : p.ptype = PositionType.Future) :
    (calc_pnl_margin_r p r).1 = spec_future_pnl p r := by
  unfold calc_pnl_margin_r spec_future_pnl qty_dir
  rw [if_pos hf]
  cases hs : p.long_short <;> simp

lemma calc_pnl_future_snd (p : Pos) (r : ℚ) (hf : p.ptype = PositionType.Future) :
    (calc_pnl_margin_r p r).2 = spec_future_margin p r := by
  unfold calc_pnl_margin_r spec_future_margin calc_future
  rw [if_pos hf]

/-- Claim C8.  The scenario engine, on an account of future legs whose
exchange is none of the netting pair, reports at every shock r the risk
level margin over equity plus pnl and the supplement max of margin over
the target minus equity plus pnl and zero, the leg pnl being the
repricing difference times signed quantity and the leg margin the
future formula at the shocked price times quantity, with the default
target equal to ninety five hundredths. -/
theorem scenario_future_account (legs : List Pos) (hd : Pos) (equity r : ℚ)
    (hh : legs.head? = some hd)
    (hex : hd.exchange ≠ Exchange.CFFEX ∧ hd.exchange ≠ Exchange.SHFE)
    (hfut : ∀ p ∈ legs, p.ptype = PositionType.Future) :
    calc_risk_ratio_supplement legs equity targetRiskDefault r =
      ((legs.map (fun p => spec_future_margin p r)).sum /
          (equity + (legs.map (fun p => spec_future_pnl p r)).sum),
        max ((legs.map (fun p => spec_future_margin p r)).sum / targetRiskDefault
          - (equity + (legs.map (fun p => spec_future_pnl p r)).sum)) 0) ∧
    targetRiskDefault = 19 / 20 := by
  have hpnl : account_pnl legs r = (legs.map (fun p => spec_future_pnl p r)).sum := by
    unfold account_pnl
    apply congrArg
    apply List.map_congr_left
    intro p hp
    exact calc_pnl_future_fst p r (hfut p hp)
  have hmargins : legs.map (fun p => (calc_pnl_margin_r p r).2) =
      legs.map (fun p => spec_future_margin p r) := by
    apply List.map_congr_left
    intro p hp
    exact calc_pnl_future_snd p r (hfut p hp)
  have hnet : account_margin legs r = (legs.map (fun p => spec_future_margin p r)).sum := by
    unfold account_margin calc_larger_side_margin_vec
    rw [hh]
    simp only [if_pos hex, hmargins]
  unfold calc_risk_ratio_supplement
  rw [hpnl, hnet]
  exact ⟨rfl, by norm_num [targetRiskDefault]⟩

/-- Scenario S6 leg: DCE rebar future, long one lot, close 4000,
multiplier 10, margin ratio eight hundredths. -/
def s6Leg : Pos :=
  { defaultPos with
    code := "RB2401"
    code_dir := "RB2401.L"
    exchange := Exchange.DCE
    ptype := PositionType.Future
    variety := "RB"
    long_short := Side.long
    quantity := 1
    close_price := 4000
    multiplier := 10
    margin_rate := 0.08 }

/-- Witness for claim C8: the S6 account at shock minus five hundredths
reports margin 3040 over equity 100000 minus 2000. -/
theorem scenario_future_account_witness :
    calc_risk_ratio_supplement [s6Leg] 100000 targetRiskDefault (-(5 / 100)) =
      (([s6Leg].map (fun p => spec_future_margin p (-(5 / 100)))).sum /
          (100000 + ([s6Leg].map (fun p => spec_future_pnl p (-(5 / 100)))).sum),
        max (([s6Leg].map (fun p => spec_future_margin p (-(5 / 100)))).sum / targetRiskDefault
          - (100000 + ([s6Leg].map (fun p => spec_future_pnl p (-(5 / 100)))).sum)) 0) ∧
    targetRiskDefault = 19 / 20 :=
  scenario_future_account [s6Leg] s6Leg 100000 (-(5 / 100)) rfl (by decide)
    (by intro p hp; simp at hp; rw [hp]; rfl)

/-! Names defined on MarginStressVaR and its base MarginStressTest in
margin_stress_test.py, against the attribute lookups that its run method
performs. -/

/-- Methods defined in the class bodies of MarginStressTest and
MarginStressVaR. -/
def marginStressVaR_methods : List String :=
  ["__init__", "calc_pnl_margin_r", "_get_cov_cholesky", "gen_path",
    "_calc_path", "calc_risk_ratio_VaR", "run"]

/-- Attribute resolution of a method name on the instance: the lookup
raises AttributeError exactly when the name is absent from the class
bodies. -/
def resolve_method (methods : List String) (name : String) : Except String Unit :=
  if name ∈ methods then Except.ok () else Except.error "AttributeError"

/-- Prefix of MarginStressVaR.run that executes on any input: the
statement r_path = self._gen_path(n_path, seed) resolves the name
_gen_path before the account loop, and the loop body would resolve
_calc_risk_ratio_VaR. -/
def marginStressVaR_run_gate : Except String Unit := do
  let _ ← resolve_method marginStressVaR_methods "_gen_path"
  let _ ← resolve_method marginStressVaR_methods "_calc_risk_ratio_VaR"
  Except.ok ()

/-- Claim C7, code bug.  MarginStressVaR.run names the helpers
_gen_path and _calc_risk_ratio_VaR, but the class defines them as
gen_path and calc_risk_ratio_VaR, so the entry point raises
AttributeError on every input before any VaR number is produced. -/
theorem margin_stress_var_run_attribute_error :
    marginStressVaR_run_gate = Except.error "AttributeError" ∧
    ¬ "_gen_path" ∈ marginStressVaR_methods ∧
    ¬ "_calc_risk_ratio_VaR" ∈ marginStressVaR_methods ∧
    "gen_path" ∈ marginStressVaR_methods ∧
    "calc_risk_ratio_VaR" ∈ marginStressVaR_methods := by
  refine ⟨?_, by decide, by decide, by decide, by decide⟩
  rfl

/-! Run loops of MarginScenarioAnalysis.run and MarginOptimizer.run,
whose final pd.concat of an empty frame list raises ValueError. -/

/-- Holding rows of one account, the filter of the run loops. -/
def holding_of_account (holding : List Pos) (a : String) : List Pos :=
  holding.filter (fun p => p.account == a)

/-- Rows one account contributes to the scenario frame: one row per
grid shock with account tag, shock, risk level and supplement. -/
def scenario_account_rows (legs : List Pos) (a : String) (equity target : ℚ)
    (rs : List ℚ) : List (String × ℚ × ℚ × ℚ) :=
  rs.map (fun r =>
    (a, r, (calc_risk_ratio_supplement legs equity target r).1,
      (calc_risk_ratio_supplement legs equity target r).2))

/-- Per-account frames collected by the loop of
MarginScenarioAnalysis.run: accounts whose holding slice is empty are
skipped by the continue statement. -/
def scenario_dfs (accounts : List (String × ℚ)) (holding : List Pos)
    (rs : List ℚ) (target : ℚ) : List (List (String × ℚ × ℚ × ℚ)) :=
  match accounts with
  | [] => []
  | ae :: aes =>
    if (holding_of_account holding ae.1).isEmpty then
      scenario_dfs aes holding rs target
    else
      scenario_account_rows (holding_of_account holding ae.1) ae.1 ae.2 target rs ::
        scenario_dfs aes holding rs target

/-- MarginScenarioAnalysis.run: collect one frame per account holding
legs and concatenate them; pd.concat of no frames raises ValueError. -/
def scenario_run (accounts : List (String × ℚ)) (holding : List Pos)
    (rs : List ℚ) (target : ℚ) : Except String (List (String × ℚ × ℚ × ℚ)) :=
  if (scenario_dfs accounts holding rs target).isEmpty then Except.error "ValueError"
  else Except.ok (scenario_dfs accounts holding rs target).join

/-- Group keys of MarginOptimizer.run, the distinct exchange and
account pairs of the holding. -/
def group_keys (holding : List Pos) : List (Exchange × String) :=
  (holding.map (fun p => (p.exchange, p.account))).dedup

/-- MarginOptimizer.run over an abstract per-account processor standing
for _process_each_account: one result frame per group followed by the
final pd.concat, which raises ValueError when no group exists. -/
def optimizer_run {α : Type} (process : Exchange → String → List Pos → List α)
    (holding : List Pos) : Except String (List α) :=
  let dfs := (group_keys holding).map (fun k =>
    process k.1 k.2 (holding.filter (fun p => p.exchange == k.1 && p.account == k.2)))
  if dfs.isEmpty then Except.error "ValueError" else Except.ok dfs.join

lemma scenario_dfs_nil (accounts : List (String × ℚ)) (holding : List Pos)
    (rs : List ℚ) (target : ℚ)
    (h : ∀ ae ∈ accounts, holding_of_account holding ae.1 = []) :
    scenario_dfs accounts holding rs target = [] := by
  induction accounts with
  | nil => rfl
  | cons ae aes ih =>
    rw [scenario_dfs]
    have he := h ae (List.mem_cons_self ae aes)
    rw [if_pos (by simp [he])]
    exact ih (fun q hq => h q (List.mem_cons_of_mem ae hq))

lemma scenario_dfs_ne_nil (accounts : List (String × ℚ)) (holding : List Pos)
    (rs : List ℚ) (target : ℚ) (ae : String × ℚ) (hmem : ae ∈ accounts)
    (hne : holding_of_account holding ae.1 ≠ []) :
    scenario_dfs accounts holding rs target ≠ [] := by
  induction accounts with
  | nil => simp at hmem
  | cons b bs ih =>
    rw [scenario_dfs]
    rcases List.mem_cons.mp hmem with hb | hb
    · subst hb
      rw [if_neg (by simpa [List.isEmpty_iff] using hne)]
      simp
    · by_cases hbe : (holding_of_account holding b.1).isEmpty = true
      · rw [if_pos hbe]
        exact ih hb
      · rw [if_neg hbe]
        simp

lemma scenario_dfs_mem (accounts : List (String × ℚ)) (holding : List Pos)
    (rs : List ℚ) (target : ℚ) (df : List (String × ℚ × ℚ × ℚ))
    (hdf : df ∈ scenario_dfs accounts holding rs target) :
    ∃ ae ∈ accounts, holding_of_account holding ae.1 ≠ [] ∧
      df = scenario_account_rows (holding_of_account holding ae.1) ae.1 ae.2 target rs := by
  induction accounts with
  | nil => simp [scenario_dfs] at hdf
  | cons b bs ih =>
    rw [scenario_dfs] at hdf
    by_cases hbe : (holding_of_account holding b.1).isEmpty = true
    · rw [if_pos hbe] at hdf
      obtain ⟨ae, hae, h1, h2⟩ := ih hdf
      exact ⟨ae, List.mem_cons_of_mem b hae, h1, h2⟩
    · rw [if_neg hbe] at hdf
      rcases List.mem_cons.mp hdf with hd | hd
      · refine ⟨b, List.mem_cons_self b bs, ?_, hd⟩
        simpa [List.isEmpty_iff] using hbe
      · obtain ⟨ae, hae, h1, h2⟩ := ih hd
        exact ⟨ae, List.mem_cons_of_mem b hae, h1, h2⟩

/-- Claim C9, amended.  Accounts with empty holdings are skipped and
rows are produced only for accounts holding at least one leg; but when
no account holds anything the scenario run fails with the pandas concat
ValueError instead of returning an empty result, and the optimizer run
fails the same way on an empty holding table. -/
theorem empty_holdings_behavior (accounts : List (String × ℚ)) (holding : List Pos)
    (rs : List ℚ) (target : ℚ) :
    ((∀ ae ∈ accounts, holding_of_account holding ae.1 = []) →
      scenario_run accounts holding rs target = Except.error "ValueError") ∧
    (∀ ae ∈ accounts, holding_of_account holding ae.1 ≠ [] →
      ∃ rows, scenario_run accounts holding rs target = Except.ok rows) ∧
    (∀ rows, scenario_run accounts holding rs target = Except.ok rows →
      ∀ row ∈ rows, holding_of_account holding row.1 ≠ []) ∧
    (∀ process : Exchange → String → List Pos → List Pos,
      holding = [] → optimizer_run process holding = Except.error "ValueError") := by
  refine ⟨?_, ?_, ?_, ?_⟩
  · intro h
    unfold scenario_run
    rw [scenario_dfs_nil accounts holding rs target h]
    rfl
  · intro ae hmem hne
    unfold scenario_run
    rw [if_neg (by
      simpa [List.isEmpty_iff] using
        scenario_dfs_ne_nil accounts holding rs target ae hmem hne)]
    exact ⟨_, rfl⟩
  · intro rows hrows row hrow
    unfold scenario_run at hrows
    by_cases hde : (scenario_dfs accounts holding rs target).isEmpty = true
    · rw [if_pos hde] at hrows
      exact absurd hrows (by simp)
    · rw [if_neg hde] at hrows
      obtain rfl : (scenario_dfs accounts holding rs target).join = rows :=
        Except.ok.inj hrows
      obtain ⟨df, hdf, hrowdf⟩ := List.mem_join.mp hrow
      obtain ⟨ae, _, hane, hdfeq⟩ :=
        scenario_dfs_mem accounts holding rs target df hdf
      subst hdfeq
      obtain ⟨r, _, hreq⟩ := List.mem_map.mp hrowdf
      have hfst : row.1 = ae.1 := by
        rw [← hreq]
      rw [hfst]
      exact hane
  · intro process hempty
    subst hempty
    rfl

/-- Witness for claim C9: with one account actually holding a leg the
scenario run succeeds. -/
theorem empty_holdings_behavior_witness :
    ∃ rows, scenario_run [("A", 100000)] [s6Leg] [0] targetRiskDefault =
      Except.ok rows :=
  (empty_holdings_behavior [("A", 100000)] [s6Leg] [0] targetRiskDefault).2.1
    ("A", 100000) (by decide) (by decide)

/-- Counterexample to claim C9 as stated: with one account and an empty
holding table both the scenario run and the optimizer run raise the
pandas concat ValueError rather than returning an empty result. -/
theorem empty_holdings_counterexample :
    scenario_run [("A", 100000)] [] [-(5 / 100), 0, 5 / 100] targetRiskDefault =
      Except.error "ValueError" ∧
    optimizer_run (fun _ _ legs => legs) [] = Except.error "ValueError" := by
  exact ⟨rfl, rfl⟩

/-! Short-leg construction of the older holding normalizers, data.py
HoldingDataProcessor.preprocess_holding and the top-level
holding_data_processor.py variant.  Both assign the short identifier
from the long sub-table, holding_short.code = holding_long.code_original
plus the suffix .S, and pandas aligns that assignment on the preserved
row index. -/

structure RawRow where
  code : String
  long_qty : ℤ
  short_qty : ℤ
deriving DecidableEq

structure ShortLeg where
  idx : ℕ
  quantity : ℤ
  code : Option String
deriving DecidableEq

/-- Index and value pairs of the series holding_long.code_original plus
the suffix .S, indexed by the original row positions of the long rows. -/
def long_codes (table : List RawRow) : List (ℕ × String) :=
  table.enum.filterMap (fun ir =>
    if 0 < ir.2.long_qty then some (ir.1, ir.2.code ++ ".S") else none)

/-- Short legs produced by the split: one leg per raw row of negative
short quantity, with negated quantity and the code field obtained by
index alignment against the long series. -/
def preprocess_short_legs (table : List RawRow) : List ShortLeg :=
  table.enum.filterMap (fun ir =>
    if ir.2.short_qty < 0 then
      some ⟨ir.1, -ir.2.short_qty, (long_codes table).lookup ir.1⟩
    else none)

lemma lookup_eq_none_of_not_key (l : List (ℕ × String)) (i : ℕ)
    (h : ∀ p ∈ l, p.1 ≠ i) : l.lookup i = none := by
  induction l with
  | nil => rfl
  | cons p ps ih =>
    rw [List.lookup]
    have hp := h p (List.mem_cons_self p ps)
    have hbe : (i == p.1) = false := beq_eq_false_iff_ne.mpr (fun he => hp he.symm)
    rw [hbe]
    exact ih (fun q hq => h q (List.mem_cons_of_mem p hq))

lemma long_codes_keys (table : List RawRow) (i : ℕ) (c : String)
    (h : (i, c) ∈ long_codes table) :
    ∃ row, table.get? i = some row ∧ 0 < row.long_qty := by
  unfold long_codes at h
  obtain ⟨ir, hmem, heq⟩ := List.mem_filterMap.mp h
  by_cases hl : 0 < ir.2.long_qty
  · rw [if_pos hl] at heq
    obtain ⟨h1, h2⟩ := Prod.mk.injEq .. ▸ Option.some_injective _ heq
    refine ⟨ir.2, ?_, hl⟩
    rw [List.get?_eq_getElem?, ← h1]
    exact List.mk_mem_enum_iff_getElem?.mp (by
      obtain ⟨a, b⟩ := ir
      exact hmem)
  · rw [if_neg hl] at heq
    exact absurd heq (by simp)

/-- Claim C10.  In the older holding normalizers, a raw position whose
long quantity is not positive and whose short quantity is negative
yields a short leg whose code is null rather than the position code
with the suffix .S: the row index is absent from the long sub-table, so
the aligned assignment leaves the field missing. -/
theorem short_only_leg_code_null (table : List RawRow) (i : ℕ) (row : RawRow)
    (hrow : table.get? i = some row)
    (hlong : ¬ 0 < row.long_qty) (hshort : row.short_qty < 0) :
    ∃ leg ∈ preprocess_short_legs table,
      leg.idx = i ∧ leg.quantity = -row.short_qty ∧ leg.code = none ∧
      leg.code ≠ some (row.code ++ ".S") := by
  have hlookup : (long_codes table).lookup i = none := by
    apply lookup_eq_none_of_not_key
    intro p hp hpi
    obtain ⟨j, c⟩ := p
    obtain ⟨row2, hrow2, hl2⟩ := long_codes_keys table j c hp
    have hji : j = i := hpi
    rw [hji] at hrow2
    rw [hrow] at hrow2
    obtain rfl : row = row2 := Option.some_injective _ hrow2
    exact hlong hl2
  refine ⟨⟨i, -row.short_qty, (long_codes table).lookup i⟩, ?_, rfl, rfl, ?_, ?_⟩
  · unfold preprocess_short_legs
    apply List.mem_filterMap.mpr
    refine ⟨(i, row), ?_, ?_⟩
    · apply List.mk_mem_enum_iff_getElem?.mpr
      rw [← List.get?_eq_getElem?]
      exact hrow
    · rw [if_pos hshort]
  · exact hlookup
  · rw [hlookup]
    simp

/-- Concrete short-only row for the witness: a single raw position with
no long quantity and short quantity minus two. -/
def c10Table : List RawRow := [⟨"M2401.DCE", 0, -2⟩]

/-- Witness for claim C10: the single short-only row of the concrete
table produces a short leg with a null code. -/
theorem short_only_leg_code_null_witness :
    ∃ leg ∈ preprocess_short_legs c10Table,
      leg.idx = 0 ∧ leg.quantity = -(-2 : ℤ) ∧ leg.code = none ∧
      leg.code ≠ some ("M2401.DCE" ++ ".S") :=
  short_only_leg_code_null c10Table 0 ⟨"M2401.DCE", 0, -2⟩ rfl (by decide) (by decide)

/-! Code parser, data_utils.parse_position_code.  The regexes of the
source are embedded as boolean matchers on character lists; re.match
anchors at the start only, so a trailing $ in the pattern demands the
whole string while a trailing dot demands one further character. -/

/-- Exchange alias normalization.  Modelled from the spec: the method
Exchange.from_code that parse_position_code calls is absent from the
shipped base.py, which is a stale revision; section 3 of the spec makes
aliases such as CFE and CCFX normalize to the canonical CFFEX value,
and the alias lists of the case arms in data.py supply the full table
(CCFX and CFE; XSHG and SH; XSHE and SZ; XSGE and SHFE; XZCE and CZCE;
XDCE and DCE; GFEX), to which the canonical names themselves belong. -/
def from_code (a : List Char) : Option Exchange :=
  if a = String.toList "CFFEX" ∨ a = String.toList "CFE" ∨ a = String.toList "CCFX" then
    some Exchange.CFFEX
  else if a = String.toList "SSE" ∨ a = String.toList "SH" ∨ a = String.toList "XSHG" then
    some Exchange.SSE
  else if a = String.toList "SZSE" ∨ a = String.toList "SZ" ∨ a = String.toList "XSHE" then
    some Exchange.SZSE
  else if a = String.toList "SHFE" ∨ a = String.toList "XSGE" then some Exchange.SHFE
  else if a = String.toList "CZCE" ∨ a = String.toList "XZCE" then some Exchange.CZCE
  else if a = String.toList "DCE" ∨ a = String.toList "XDCE" then some Exchange.DCE
  else if a = String.toList "GFEX" then some Exchange.GFEX
  else none

/-- Matcher for the CFFEX future regex: prefix IF, IC, IM or IH, then
exactly four digits to the end. -/
def cffex_future (s : List Char) : Bool :=
  match s with
  | a :: b :: rest =>
    (a == 'I' && (b == 'F' || b == 'C' || b == 'M' || b == 'H')) &&
      (rest.length == 4 && rest.all Char.isDigit)
  | _ => false

/-- Matcher for the CFFEX option regex: prefix IO, MO or HO, four
digits, then at least one further character. -/
def cffex_option (s : List Char) : Bool :=
  match s with
  | a :: b :: rest =>
    ((a == 'I' || a == 'M' || a == 'H') && b == 'O') &&
      ((rest.take 4).length == 4 && (rest.take 4).all Char.isDigit) &&
      decide (5 ≤ rest.length)
  | _ => false

/-- Matcher for the first SSE and SZSE option regex: exactly eight
digits. -/
def sse_option1 (s : List Char) : Bool :=
  s.length == 8 && s.all Char.isDigit

/-- Marker alternation (C|P|-C-|-P-) followed by one character; the
alternatives are mutually exclusive on the first character, so the
backtracking regex engine and this case split agree. -/
def marker_check (t : List Char) : Bool :=
  match t with
  | 'C' :: rest => !rest.isEmpty
  | 'P' :: rest => !rest.isEmpty
  | '-' :: 'C' :: '-' :: rest => !rest.isEmpty
  | '-' :: 'P' :: '-' :: rest => !rest.isEmpty
  | _ => false

/-- Matcher for the second SSE and SZSE option regex: six digits, the
call or put marker, one further character. -/
def sse_option2 (s : List Char) : Bool :=
  ((s.take 6).length == 6 && (s.take 6).all Char.isDigit) && marker_check (s.drop 6)

/-- Matcher for the commodity future regex: a non-empty alphabetic
prefix and exactly four digits to the end.  The greedy group equals
the maximal alphabetic prefix because the character after the group
must be a digit. -/
def commodity_future (s : List Char) : Bool :=
  let alpha := s.takeWhile Char.isAlpha
  let rest := s.dropWhile Char.isAlpha
  !alpha.isEmpty && (rest.length == 4 && rest.all Char.isDigit)

/-- Matcher for the commodity option regex: a non-empty alphabetic
prefix, four digits, the marker, one further character. -/
def commodity_option (s : List Char) : Bool :=
  let alpha := s.takeWhile Char.isAlpha
  let rest := s.dropWhile Char.isAlpha
  !alpha.isEmpty && ((rest.take 4).length == 4 && (rest.take 4).all Char.isDigit) &&
    marker_check (rest.drop 4)

/-- Disjunction of the regexes that parse_position_code tries for one
exchange. -/
def exchange_match (ex : Exchange) (sym : List Char) : Bool :=
  match ex with
  | Exchange.CFFEX => cffex_future sym || cffex_option sym
  | Exchange.SSE => sse_option1 sym || sse_option2 sym
  | Exchange.SZSE => sse_option1 sym || sse_option2 sym
  | Exchange.SHFE => commodity_future sym || commodity_option sym
  | Exchange.CZCE => commodity_future sym || commodity_option sym
  | Exchange.DCE => commodity_future sym || commodity_option sym
  | Exchange.GFEX => commodity_future sym || commodity_option sym

/-- Position type the section 4.1 table assigns to a matching symbol:
the future regex of the exchange decides Future, otherwise Option. -/
def expected_type (ex : Exchange) (sym : List Char) : PositionType :=
  match ex with
  | Exchange.CFFEX =>
    if cffex_future sym then PositionType.Future else PositionType.Option
  | Exchange.SSE => PositionType.Option
  | Exchange.SZSE => PositionType.Option
  | _ => if commodity_future sym then PositionType.Future else PositionType.Option

/-- Variety the section 4.1 table assigns: two-letter prefix for CFFEX,
the tag ETF for the equity exchanges, the uppercased alphabetic prefix
for the commodity exchanges. -/
def expected_variety (ex : Exchange) (sym : List Char) : String :=
  match ex with
  | Exchange.CFFEX => String.mk (sym.take 2)
  | Exchange.SSE => "ETF"
  | Exchange.SZSE => "ETF"
  | _ => String.mk ((sym.takeWhile Char.isAlpha).map Char.toUpper)

/-- Splitting on the dot character, the semantics of str.split in the
try block of parse_position_code. -/
def splitOnDot (s : List Char) : List (List Char) :=
  match s with
  | [] => [[]]
  | c :: rest =>
    let r := splitOnDot rest
    if c = '.' then [] :: r
    else
      match r with
      | chunk :: more => (c :: chunk) :: more
      | [] => [[c]]

/-- Symbol and alias handling after the split succeeded with exactly
two parts: normalize the alias, then try the regexes of the exchange in
source order. -/
def parse_symbol (ex : Exchange) (sym : List Char) :
    Except String (Exchange × PositionType × String) :=
  match ex with
  | Exchange.CFFEX =>
    if cffex_future sym then
      Except.ok (Exchange.CFFEX, PositionType.Future, String.mk (sym.take 2))
    else if cffex_option sym then
      Except.ok (Exchange.CFFEX, PositionType.Option, String.mk (sym.take 2))
    else Except.error "InvalidCode"
  | Exchange.SSE =>
    if sse_option1 sym || sse_option2 sym then
      Except.ok (Exchange.SSE, PositionType.Option, "ETF")
    else Except.error "InvalidCode"
  | Exchange.SZSE =>
    if sse_option1 sym || sse_option2 sym then
      Except.ok (Exchange.SZSE, PositionType.Option, "ETF")
    else Except.error "InvalidCode"
  | ex =>
    if commodity_future sym then
      Except.ok (ex, PositionType.Future,
        String.mk ((sym.takeWhile Char.isAlpha).map Char.toUpper))
    else if commodity_option sym then
      Except.ok (ex, PositionType.Option,
        String.mk ((sym.takeWhile Char.isAlpha).map Char.toUpper))
    else Except.error "InvalidCode"

/-- Normalization and dispatch after the split. -/
def parse_parts (sym a : List Char) :
    Except String (Exchange × PositionType × String) :=
  match from_code a with
  | none => Except.error "InvalidCode"
  | some ex => parse_symbol ex sym

/-- Embedding of data_utils.parse_position_code: split the code on the
dot, fail unless exactly two parts emerge, normalize the alias, match
the exchange regexes, and fail on no match. -/
def parse_position_code (code : List Char) :
    Except String (Exchange × PositionType × String) :=
  match splitOnDot code with
  | [sym, a] => parse_parts sym a
  | _ => Except.error "InvalidCode"

lemma splitOnDot_no_dot (l : List Char) (h : ('.' : Char) ∉ l) :
    splitOnDot l = [l] := by
  induction l with
  | nil => rfl
  | cons c rest ih =>
    have hc : ¬ c = '.' := fun hc => h (hc ▸ List.mem_cons_self c rest)
    have hr := ih (fun hm => h (List.mem_cons_of_mem c hm))
    rw [splitOnDot]
    simp only [hr]
    rw [if_neg hc]

lemma splitOnDot_append (sym a : List Char) (hs : ('.' : Char) ∉ sym) :
    splitOnDot (sym ++ '.' :: a) = sym :: splitOnDot a := by
  induction sym with
  | nil =>
    rw [List.nil_append, splitOnDot]
    simp
  | cons c sym ih =>
    have hc : ¬ c = '.' := fun hc => hs (hc ▸ List.mem_cons_self c sym)
    have hr := ih (fun hm => hs (List.mem_cons_of_mem c hm))
    rw [List.cons_append, splitOnDot]
    simp only [hr]
    rw [if_neg hc]

lemma parse_symbol_error_iff (ex : Exchange) (sym : List Char) :
    (parse_symbol ex sym = Except.error "InvalidCode" ↔
      exchange_match ex sym = false) := by
  cases ex with
  | CFFEX =>
    simp only [parse_symbol, exchange_match]
    cases h1 : cffex_future sym <;> cases h2 : cffex_option sym <;> simp [h1, h2]
  | SSE =>
    simp only [parse_symbol, exchange_match]
    cases h1 : sse_option1 sym <;> cases h2 : sse_option2 sym <;> simp [h1, h2]
  | SZSE =>
    simp only [parse_symbol, exchange_match]
    cases h1 : sse_option1 sym <;> cases h2 : sse_option2 sym <;> simp [h1, h2]
  | SHFE =>
    simp only [parse_symbol, exchange_match]
    cases h1 : commodity_future sym <;> cases h2 : commodity_option sym <;> simp [h1, h2]
  | CZCE =>
    simp only [parse_symbol, exchange_match]
    cases h1 : commodity_future sym <;> cases h2 : commodity_option sym <;> simp [h1, h2]
  | DCE =>
    simp only [parse_symbol, exchange_match]
    cases h1 : commodity_future sym <;> cases h2 : commodity_option sym <;> simp [h1, h2]
  | GFEX =>
    simp only [parse_symbol, exchange_match]
    cases h1 : commodity_future sym <;> cases h2 : commodity_option sym <;> simp [h1, h2]

lemma parse_symbol_ok (ex : Exchange) (sym : List Char)
    (hm : exchange_match ex sym = true) :
    parse_symbol ex sym =
      Except.ok (ex, expected_type ex sym, expected_variety ex sym) := by
  cases ex with
  | CFFEX =>
    simp only [parse_symbol, exchange_match, expected_type, expected_variety] at hm ⊢
    cases h1 : cffex_future sym <;> rw [h1] at hm <;> simp [h1] <;> simp at hm <;>
      simp [hm]
  | SSE =>
    simp only [parse_symbol, exchange_match, expected_type, expected_variety] at hm ⊢
    simp [hm]
  | SZSE =>
    simp only [parse_symbol, exchange_match, expected_type, expected_variety] at hm ⊢
    simp [hm]
  | SHFE =>
    simp only [parse_symbol, exchange_match, expected_type, expected_variety] at hm ⊢
    cases h1 : commodity_future sym <;> rw [h1] at hm <;> simp [h1] <;> simp at hm <;>
      simp [hm]
  | CZCE =>
    simp only [parse_symbol, exchange_match, expected_type, expected_variety] at hm ⊢
    cases h1 : commodity_future sym <;> rw [h1] at hm <;> simp [h1] <;> simp at hm <;>
      simp [hm]
  | DCE =>
    simp only [parse_symbol, exchange_match, expected_type, expected_variety] at hm ⊢
    cases h1 : commodity_future sym <;> rw [h1] at hm <;> simp [h1] <;> simp at hm <;>
      simp [hm]
  | GFEX =>
    simp only [parse_symbol, exchange_match, expected_type, expected_variety] at hm ⊢
    cases h1 : commodity_future sym <;> rw [h1] at hm <;> simp [h1] <;> simp at hm <;>
      simp [hm]

/-- Claim C6.  The alias normalization maps CFE and CCFX to the
canonical CFFEX member of the closed exchange enumeration, and for
every code of the form symbol dot alias, parse_position_code fails with
InvalidCode exactly when the alias is unknown or the symbol matches
none of the regexes of that exchange, while a symbol matching one of
the section 4.1 regexes yields the exchange, position type and variety
of the table. -/
theorem parse_position_code_spec :
    from_code (String.toList "CFE") = some Exchange.CFFEX ∧
    from_code (String.toList "CCFX") = some Exchange.CFFEX ∧
    ∀ (sym a : List Char), ('.' : Char) ∉ sym → ('.' : Char) ∉ a →
      ((from_code a = none →
        parse_position_code (sym ++ '.' :: a) = Except.error "InvalidCode") ∧
      (∀ ex, from_code a = some ex →
        (parse_position_code (sym ++ '.' :: a) = Except.error "InvalidCode" ↔
          exchange_match ex sym = false) ∧
        (exchange_match ex sym = true →
          parse_position_code (sym ++ '.' :: a) =
            Except.ok (ex, expected_type ex sym, expected_variety ex sym)))) := by
  refine ⟨by decide, by decide, ?_⟩
  intro sym a hs ha
  have hred : parse_position_code (sym ++ '.' :: a) = parse_parts sym a := by
    unfold parse_position_code
    rw [splitOnDot_append sym a hs, splitOnDot_no_dot a ha]
  constructor
  · intro hnone
    rw [hred]
    unfold parse_parts
    rw [hnone]
  · intro ex hex
    have hred2 : parse_position_code (sym ++ '.' :: a) = parse_symbol ex sym := by
      rw [hred]
      unfold parse_parts
      rw [hex]
    rw [hred2]
    exact ⟨parse_symbol_error_iff ex sym, parse_symbol_ok ex sym⟩

/-- Witness for claim C6: the code IF2401.CFE parses through the CFE
alias to the CFFEX future of variety IF, and an unmatched symbol on the
same alias fails with InvalidCode. -/
theorem parse_position_code_spec_witness :
    parse_position_code (String.toList "IF2401" ++ '.' :: String.toList "CFE") =
      Except.ok (Exchange.CFFEX, expected_type Exchange.CFFEX (String.toList "IF2401"),
        expected_variety Exchange.CFFEX (String.toList "IF2401")) ∧
    parse_position_code (String.toList "ZZ99" ++ '.' :: String.toList "CFE") =
      Except.error "InvalidCode" := by
  constructor
  · exact ((parse_position_code_spec.2.2 (String.toList "IF2401") (String.toList "CFE")
      (by decide) (by decide)).2 Exchange.CFFEX (by decide)).2 (by decide)
  · exact ((parse_position_code_spec.2.2 (String.toList "ZZ99") (String.toList "CFE")
      (by decide) (by decide)).2 Exchange.CFFEX (by decide)).1.mpr (by decide)

end MarginAnalysis
